import Mathlib

/-!
Verification of the paginated retrieval and tidying pipeline of
src/stravaboard/api/data_manager.py (class ActivitiesManager).

The embedding models pandas DataFrames as named columns over positional rows,
the Strava transport as a function from page numbers to page outcomes, and the
two methods get_data / tidy_data as executable Lean functions.
-/

/-- Cell values held in a DataFrame: numbers (Python floats modelled by
rationals), strings, parsed calendar dates, the two floating infinities, and
the missing-value marker (NaN, None or NaT). -/
inductive Cell
  | num (q : ℚ)
  | str (s : String)
  | date (y m d : ℕ)
  | pinf
  | ninf
  | null
deriving DecidableEq

/-- One raw activity record returned by the Strava API: a flat JSON object,
modelled as an association list from field names to values. -/
abbrev ActivityRec := List (String × Cell)

/-- A pandas DataFrame: named columns and positional rows. -/
structure DF where
  cols : List String
  rows : List (List Cell)
deriving DecidableEq

/-- The empty DataFrame, pd.DataFrame(). -/
def DF.empty : DF := ⟨[], []⟩

/-- Index of the first column carrying the given name (pandas column lookup). -/
def colIdx : List String → String → Option ℕ
  | [], _ => none
  | c :: rest, k => if c = k then some 0 else (colIdx rest k).map (fun i => i + 1)

/-- Reading one cell of a row through a column name; a missing column or a
short row reads as the missing-value marker, matching pandas NaN semantics. -/
def DF.getCell (d : DF) (k : String) (r : List Cell) : Cell :=
  match colIdx d.cols k with
  | some i => r.getD i Cell.null
  | none => Cell.null

/-- Column assignment on a pandas DataFrame: overwrite the column in place
when the name already exists, else append a fresh column on the right. The
new cell of each row is computed from that row of the current frame. -/
def DF.setCol (d : DF) (k : String) (f : List Cell → Cell) : DF :=
  match colIdx d.cols k with
  | some i => ⟨d.cols, d.rows.map (fun r => r.set i (f r))⟩
  | none => ⟨d.cols ++ [k], d.rows.map (fun r => r ++ [f r])⟩

/-- Values of one column, top to bottom. -/
def DF.colVals (d : DF) (k : String) : List Cell :=
  d.rows.map (d.getCell k)

/-- Rectangularity: every row has exactly one cell per column. Every pandas
DataFrame satisfies this, as does every output of json normalization. -/
def DF.Rect (d : DF) : Prop :=
  ∀ r ∈ d.rows, r.length = d.cols.length

instance (d : DF) : Decidable d.Rect :=
  List.decidableBAll _ d.rows

/-- Model of pd.DataFrame.empty: true when either axis has length zero. -/
def DF.isEmpty (d : DF) : Bool :=
  d.rows.isEmpty || d.cols.isEmpty

/-- Insert a key at the right end unless it is already present. -/
def insertKey (ks : List String) (k : String) : List String :=
  if k ∈ ks then ks else ks ++ [k]

/-- Accumulate the keys of one record, in order of first appearance. -/
def recKeysInto (ks : List String) (r : ActivityRec) : List String :=
  r.foldl (fun a kv => insertKey a kv.1) ks

/-- Column names of pd.json_normalize: the union of the record keys in order
of first appearance. -/
def allKeys (rs : List ActivityRec) : List String :=
  rs.foldl recKeysInto []

/-- Value of a field in a record; an absent field reads as NaN. -/
def lookupCell : ActivityRec → String → Cell
  | [], _ => Cell.null
  | (k, v) :: rest, k' => if k = k' then v else lookupCell rest k'

/-- Model of pd.json_normalize on a list of flat JSON objects: one row per
record, one column per key, missing keys filled with NaN. -/
def jsonNormalize (rs : List ActivityRec) : DF :=
  ⟨allKeys rs, rs.map (fun r => (allKeys rs).map (lookupCell r))⟩

/-- Division of rationals, written through mkRat on numerators and
denominators so that the kernel can evaluate it on concrete inputs; agrees
with field division whenever the divisor is non-zero. -/
def qdiv (a b : ℚ) : ℚ :=
  if 0 ≤ b.num then mkRat (a.num * b.den) (a.den * b.num.natAbs)
  else mkRat (-(a.num * b.den)) (a.den * b.num.natAbs)

/-- Rounding a rational to two decimal places (round half up): the floor of
q * 100 + 1/2, divided by 100, computed on numerator and denominator. -/
def round2 (q : ℚ) : ℚ := mkRat (Int.fdiv (q.num * 200 + q.den) (2 * q.den)) 100

/-- Elementwise Series.round(2) of pandas: rounds numbers, keeps NaN and the
infinities unchanged. -/
def cellRound2 : Cell → Cell
  | Cell.num q => Cell.num (round2 q)
  | c => c

/-- Elementwise float division under pandas: NaN propagates, x/0 gives an
infinity for x not zero and NaN for 0/0. Non-numeric operands never arise in
the tidy pipeline and read as the missing marker. -/
def cellDiv : Cell → Cell → Cell
  | Cell.num a, Cell.num b =>
      if b.num = 0 then (if a.num = 0 then Cell.null else if 0 < a.num then Cell.pinf else Cell.ninf)
      else Cell.num (qdiv a b)
  | _, _ => Cell.null

/-- Model of Series.replace of both infinities by np.nan. -/
def replaceInf : Cell → Cell
  | Cell.pinf => Cell.null
  | Cell.ninf => Cell.null
  | c => c

/-- Model of astype(str) on the cells that can appear in start_date_local:
strings pass through and NaN prints as the string nan. -/
def cellToStr : Cell → String
  | Cell.str s => s
  | Cell.null => "nan"
  | Cell.num q => toString q
  | Cell.pinf => "inf"
  | Cell.ninf => "-inf"
  | Cell.date y m d => toString y ++ "-" ++ toString m ++ "-" ++ toString d

/-- Model of the regex replacement removing everything from the first T on,
written on the character list of the string. -/
def stripTime (s : String) : String :=
  String.mk (s.data.takeWhile (fun c => c != 'T'))

/-- Splitting a character list on a separator, as String.splitOn does. -/
def splitOnSep (sep : Char) : List Char → List (List Char)
  | [] => [[]]
  | c :: rest =>
    let r := splitOnSep sep rest
    if c = sep then [] :: r else (c :: r.headD []) :: r.tail

/-- Numeric value of a decimal digit character. -/
def digitVal (c : Char) : Option ℕ :=
  if 48 ≤ c.toNat ∧ c.toNat ≤ 57 then some (c.toNat - 48) else none

/-- Parse of a non-empty all-digit character list into a natural number. -/
def digitsToNat? (cs : List Char) : Option ℕ :=
  match cs with
  | [] => none
  | _ => cs.foldl (fun acc c => acc.bind (fun n => (digitVal c).map (fun d => n * 10 + d))) (some 0)

/-- Model of pd.to_datetime with errors coerce on a date string: three
dash-separated numeric components in calendar range give a date, anything
else becomes NaT. -/
def parseDate (s : String) : Cell :=
  match splitOnSep '-' s.data with
  | [y, m, d] =>
    match digitsToNat? y, digitsToNat? m, digitsToNat? d with
    | some yn, some mn, some dn =>
        if 1 ≤ mn ∧ mn ≤ 12 ∧ 1 ≤ dn ∧ dn ≤ 31 then Cell.date yn mn dn else Cell.null
    | _, _, _ => Cell.null
  | _ => Cell.null

/-- Lifting the date parse to a cell; non-string cells coerce to NaT. -/
def parseToDate : Cell → Cell
  | Cell.str s => parseDate s
  | _ => Cell.null

/-- Step one of tidy_data: elapsed_min = (elapsed_time / 60).round(2) when the
source column exists, else a column of None. -/
def addElapsed (d : DF) : DF :=
  if "elapsed_time" ∈ d.cols then
    d.setCol "elapsed_min" (fun r => cellRound2 (cellDiv (d.getCell "elapsed_time" r) (Cell.num 60)))
  else
    d.setCol "elapsed_min" (fun _ => Cell.null)

/-- Step two of tidy_data: distance_km = (distance / 1000).round(2) when the
source column exists, else a column of None. -/
def addDistance (d : DF) : DF :=
  if "distance" ∈ d.cols then
    d.setCol "distance_km" (fun r => cellRound2 (cellDiv (d.getCell "distance" r) (Cell.num 1000)))
  else
    d.setCol "distance_km" (fun _ => Cell.null)

/-- Guard of the speed computation: the issubset check of the source. -/
def speedGuard (d : DF) : Prop :=
  "elapsed_min" ∈ d.cols ∧ "distance_km" ∈ d.cols

instance (d : DF) : Decidable (speedGuard d) := by
  unfold speedGuard
  infer_instance

/-- The division-and-replace path of the speed computation:
(elapsed_min / distance_km).replace(inf, nan).round(2). -/
def addSpeedDiv (d : DF) : DF :=
  d.setCol "speed_mins_per_km"
    (fun r => cellRound2 (replaceInf (cellDiv (d.getCell "elapsed_min" r) (d.getCell "distance_km" r))))

/-- Step three of tidy_data: the guarded speed computation, falling back to a
column of NaN when one of the two derived columns is missing. -/
def addSpeed (d : DF) : DF :=
  if speedGuard d then addSpeedDiv d
  else d.setCol "speed_mins_per_km" (fun _ => Cell.null)

/-- First date assignment of tidy_data: the stripped string form of
start_date_local. -/
def dateStrStep (d : DF) : DF :=
  d.setCol "date" (fun r => Cell.str (stripTime (cellToStr (d.getCell "start_date_local" r))))

/-- Second date assignment of tidy_data: the date column re-assigned its own
parse under to_datetime. -/
def dateParseStep (d : DF) : DF :=
  d.setCol "date" (fun r => parseToDate (d.getCell "date" r))

/-- Step four of tidy_data: date is first assigned the stripped string form of
start_date_local, then re-assigned its parse under to_datetime; when the
source column is missing the column is a column of None. -/
def addDate (d : DF) : DF :=
  if "start_date_local" ∈ d.cols then dateParseStep (dateStrStep d)
  else d.setCol "date" (fun _ => Cell.null)

/-- The tidy pipeline on a non-empty DataFrame: the four derivation steps in
source order. -/
def tidyDF (d : DF) : DF :=
  addDate (addSpeed (addDistance (addElapsed d)))

/-- The held state self.data of an ActivitiesManager instance: the attribute
may not exist yet, may hold a non-DataFrame, or holds a DataFrame. -/
inductive Held
  | missing
  | notDF
  | table (d : DF)
deriving DecidableEq

/-- The one Python exception the model distinguishes. -/
inductive PyErr
  | attributeError
deriving DecidableEq

/-- Model of tidy_data: reading self.data before any get_data call raises
AttributeError; a non-DataFrame or empty DataFrame is replaced by the empty
table; otherwise the four derived columns are computed. -/
def tidyData : Held → Except PyErr Held
  | Held.missing => Except.error PyErr.attributeError
  | Held.notDF => Except.ok (Held.table DF.empty)
  | Held.table d =>
    if d.isEmpty then Except.ok (Held.table DF.empty)
    else Except.ok (Held.table (tidyDF d))

/-- Outcome of one page request against the activities endpoint. -/
inductive PageResult
  | ok (recs : List ActivityRec)
  | httpError
  | errorObject
  | raise
deriving DecidableEq

/-- Result of the pagination loop: the pages requested in order, the list
accumulated when the loop stopped, and whether the transport raised. -/
structure LoopResult where
  requested : List ℕ
  acc : List ActivityRec
  raised : Bool
deriving DecidableEq

/-- The pagination loop of get_data. The while condition is checked before
every request; an error status, an error-shaped payload or an empty payload
stops the loop; a non-empty payload is appended and a short payload stops the
loop; a transport exception stops the loop with the raised flag set. The fuel
argument only bounds recursion and never runs out when it starts above n. -/
def fetchLoop (pages : ℕ → PageResult) (n perPage : ℕ) : ℕ → ℕ → List ActivityRec → LoopResult
  | 0, _, acc => ⟨[], acc, false⟩
  | fuel + 1, page, acc =>
    if acc.length < n then
      match pages page with
      | PageResult.raise => ⟨[page], acc, true⟩
      | PageResult.httpError => ⟨[page], acc, false⟩
      | PageResult.errorObject => ⟨[page], acc, false⟩
      | PageResult.ok [] => ⟨[page], acc, false⟩
      | PageResult.ok (rec0 :: recs) =>
        if (rec0 :: recs).length < perPage then
          ⟨[page], acc ++ rec0 :: recs, false⟩
        else
          let r := fetchLoop pages n perPage fuel (page + 1) (acc ++ rec0 :: recs)
          ⟨page :: r.requested, r.acc, r.raised⟩
    else ⟨[], acc, false⟩

/-- Records contributed by one page: its payload when the request succeeded
with a list, nothing otherwise. -/
def okRecs (pages : ℕ → PageResult) (p : ℕ) : List ActivityRec :=
  match pages p with
  | PageResult.ok recs => recs
  | _ => []

/-- Concatenation of the records of a list of pages. -/
def pagesRecs (pages : ℕ → PageResult) : List ℕ → List ActivityRec
  | [] => []
  | p :: ps => okRecs pages p ++ pagesRecs pages ps

/-- Number of records held after the successful pages 1 through p. -/
def accThrough (pages : ℕ → PageResult) (p : ℕ) : ℕ :=
  (pagesRecs pages (List.range' 1 p)).length

/-- The loop as get_data runs it: per_page = min(n, 200), starting at page 1
with an empty accumulator and fuel n + 1. -/
def getDataLoop (pages : ℕ → PageResult) (n : ℕ) : LoopResult :=
  fetchLoop pages n (min n 200) (n + 1) 1 []

/-- Model of get_data: run the pagination loop; on a transport exception the
held table is reset to the empty DataFrame, otherwise the accumulated records
are normalized into the held DataFrame. -/
def getData (pages : ℕ → PageResult) (n : ℕ) : DF :=
  let r := getDataLoop pages n
  if r.raised then DF.empty else jsonNormalize r.acc

/-- Fixture: a one-field activity record used by concrete checks. -/
def wRec : ActivityRec := [("elapsed_time", Cell.num 60)]

/-- Fixture: a transport answering every page with the same full page of
three records. -/
def wPagesFull : ℕ → PageResult := fun _ => PageResult.ok [wRec, wRec, wRec]

/-- Fixture: a transport whose first page is short. -/
def wPagesShort : ℕ → PageResult :=
  fun p => if p = 1 then PageResult.ok [wRec] else PageResult.ok [wRec, wRec]

/-- Fixture: a transport returning one full page of 200 records and then
raising a connection error. -/
def wPagesRaise : ℕ → PageResult :=
  fun p => if p = 1 then PageResult.ok (List.replicate 200 wRec) else PageResult.raise

/-- Fixture: a fully populated raw activity frame. -/
def wDF : DF :=
  jsonNormalize [[("elapsed_time", Cell.num 120), ("distance", Cell.num 1000),
    ("start_date_local", Cell.str "2024-05-01T10:00:00Z")]]

/-- Fixture: a raw activity frame with no distance field anywhere. -/
def wDFnoDist : DF :=
  jsonNormalize [[("elapsed_time", Cell.num 120), ("other", Cell.str "run")]]

/-- Fixture: a raw activity frame whose row has distance zero. -/
def wDFzero : DF :=
  jsonNormalize [[("elapsed_time", Cell.num 60), ("distance", Cell.num 0)]]

/-!  Basic lemmas about column lookup.  -/

theorem colIdx_eq_none {cols : List String} {k : String} :
    colIdx cols k = none ↔ k ∉ cols := by
  induction cols with
  | nil => simp [colIdx]
  | cons c rest ih =>
    by_cases h : c = k
    · simp [colIdx, h]
    · simp [colIdx, h, ih, Ne.symm h]

theorem colIdx_lt {cols : List String} {k : String} {i : ℕ}
    (h : colIdx cols k = some i) : i < cols.length := by
  induction cols generalizing i with
  | nil => simp [colIdx] at h
  | cons c rest ih =>
    by_cases hc : c = k
    · simp [colIdx, hc] at h
      simp
      omega
    · simp [colIdx, hc] at h
      obtain ⟨j, hj, rfl⟩ := h
      have := ih hj
      simp
      omega

theorem colIdx_getElem? {cols : List String} {k : String} {i : ℕ}
    (h : colIdx cols k = some i) : cols[i]? = some k := by
  induction cols generalizing i with
  | nil => simp [colIdx] at h
  | cons c rest ih =>
    by_cases hc : c = k
    · simp [colIdx, hc] at h
      subst h
      simp [hc]
    · simp [colIdx, hc] at h
      obtain ⟨j, hj, rfl⟩ := h
      simpa using ih hj

theorem colIdx_mem {cols : List String} {k : String} (h : k ∈ cols) :
    ∃ i, colIdx cols k = some i := by
  cases hc : colIdx cols k with
  | none => exact absurd (colIdx_eq_none.mp hc) (by simp [h])
  | some i => exact ⟨i, rfl⟩

theorem colIdx_append_left {cols l2 : List String} {k : String} (h : k ∈ cols) :
    colIdx (cols ++ l2) k = colIdx cols k := by
  induction cols with
  | nil => simp at h
  | cons c rest ih =>
    by_cases hc : c = k
    · simp [colIdx, hc]
    · have hk : k ∈ rest := by
        rcases List.mem_cons.mp h with h1 | h1
        · exact absurd h1.symm hc
        · exact h1
      simp [colIdx, hc, ih hk]

theorem colIdx_append_self {cols : List String} {k : String} (h : k ∉ cols) :
    colIdx (cols ++ [k]) k = some cols.length := by
  induction cols with
  | nil => simp [colIdx]
  | cons c rest ih =>
    have hc : c ≠ k := by
      intro hck
      exact h (by simp [hck])
    have hk : k ∉ rest := fun hk => h (by simp [hk])
    simp [colIdx, hc, ih hk]

theorem colIdx_of_nodup {cols : List String} (hnd : cols.Nodup) {j : ℕ} {k : String}
    (h : cols[j]? = some k) : colIdx cols k = some j := by
  induction cols generalizing j with
  | nil => simp at h
  | cons c rest ih =>
    rcases List.nodup_cons.mp hnd with ⟨hcr, hrest⟩
    cases j with
    | zero =>
      simp at h
      simp [colIdx, h]
    | succ j =>
      simp at h
      have hk : k ∈ rest := List.getElem?_mem h
      have hc : c ≠ k := by
        intro hck
        exact hcr (hck ▸ hk)
      simp [colIdx, hc, ih hrest h]

/-!  Lemmas about column assignment.  -/

theorem setCol_cols_of_mem {d : DF} {k : String} {f : List Cell → Cell}
    (h : k ∈ d.cols) : (d.setCol k f).cols = d.cols := by
  obtain ⟨i, hi⟩ := colIdx_mem h
  simp [DF.setCol, hi]

theorem setCol_cols_of_not_mem {d : DF} {k : String} {f : List Cell → Cell}
    (h : k ∉ d.cols) : (d.setCol k f).cols = d.cols ++ [k] := by
  have hc : colIdx d.cols k = none := colIdx_eq_none.mpr h
  simp [DF.setCol, hc]

theorem setCol_rows_length {d : DF} {k : String} {f : List Cell → Cell} :
    (d.setCol k f).rows.length = d.rows.length := by
  unfold DF.setCol
  cases colIdx d.cols k <;> simp

theorem setCol_rect {d : DF} {k : String} {f : List Cell → Cell}
    (hR : d.Rect) : (d.setCol k f).Rect := by
  unfold DF.setCol DF.Rect
  cases hc : colIdx d.cols k with
  | some i =>
    intro r hr
    simp at hr
    obtain ⟨r0, hr0, rfl⟩ := hr
    simp [hR r0 hr0]
  | none =>
    intro r hr
    simp at hr
    obtain ⟨r0, hr0, rfl⟩ := hr
    simp [hR r0 hr0]

theorem setCol_nodup {d : DF} {k : String} {f : List Cell → Cell}
    (hnd : d.cols.Nodup) : (d.setCol k f).cols.Nodup := by
  by_cases h : k ∈ d.cols
  · rw [setCol_cols_of_mem h]
    exact hnd
  · rw [setCol_cols_of_not_mem h]
    simp [List.nodup_append, hnd, h]

theorem mem_setCol_self {d : DF} {k : String} {f : List Cell → Cell} :
    k ∈ (d.setCol k f).cols := by
  by_cases h : k ∈ d.cols
  · rw [setCol_cols_of_mem h]
    exact h
  · rw [setCol_cols_of_not_mem h]
    simp

theorem mem_setCol_of_mem {d : DF} {k c : String} {f : List Cell → Cell}
    (h : c ∈ d.cols) : c ∈ (d.setCol k f).cols := by
  by_cases hk : k ∈ d.cols
  · rw [setCol_cols_of_mem hk]
    exact h
  · rw [setCol_cols_of_not_mem hk]
    simp [h]

theorem mem_setCol_iff {d : DF} {k c : String} {f : List Cell → Cell}
    (hne : c ≠ k) : c ∈ (d.setCol k f).cols ↔ c ∈ d.cols := by
  by_cases hk : k ∈ d.cols
  · rw [setCol_cols_of_mem hk]
  · rw [setCol_cols_of_not_mem hk]
    simp [hne]

theorem colVals_length {d : DF} {k : String} :
    (d.colVals k).length = d.rows.length := by
  simp [DF.colVals]

theorem colVals_setCol_self {d : DF} {k : String} {f : List Cell → Cell}
    (hR : d.Rect) : (d.setCol k f).colVals k = d.rows.map f := by
  unfold DF.setCol
  cases hc : colIdx d.cols k with
  | some i =>
    have hi : i < d.cols.length := colIdx_lt hc
    simp only [DF.colVals, DF.getCell, hc, List.map_map]
    apply List.map_congr_left
    intro r hr
    have hlen : i < r.length := by rw [hR r hr]; exact hi
    simp [DF.getCell, hc, List.getD_eq_getElem?_getD,
      List.getElem?_set_self (by simpa using hlen)]
  | none =>
    have hidx : colIdx (d.cols ++ [k]) k = some d.cols.length :=
      colIdx_append_self (colIdx_eq_none.mp hc)
    simp only [DF.colVals, DF.getCell, List.map_map]
    apply List.map_congr_left
    intro r hr
    have hlen : r.length = d.cols.length := hR r hr
    simp [DF.getCell, hidx, List.getD_eq_getElem?_getD,
      hlen ▸ List.getElem?_concat_length r (f r)]

theorem colVals_setCol_ne {d : DF} {k c : String} {f : List Cell → Cell}
    (hR : d.Rect) (hne : c ≠ k) : (d.setCol k f).colVals c = d.colVals c := by
  unfold DF.setCol
  cases hc : colIdx d.cols k with
  | some i =>
    cases hc2 : colIdx d.cols c with
    | none => simp [DF.colVals, DF.getCell, hc2, List.map_map]
    | some j =>
      have hij : i ≠ j := by
        intro hij
        subst hij
        have h1 := colIdx_getElem? hc
        have h2 := colIdx_getElem? hc2
        rw [h1] at h2
        exact hne (Option.some.inj h2).symm
      simp only [DF.colVals, List.map_map]
      apply List.map_congr_left
      intro r hr
      simp [DF.getCell, hc2, List.getD_eq_getElem?_getD, List.getElem?_set_ne hij]
  | none =>
    have hknot : k ∉ d.cols := colIdx_eq_none.mp hc
    by_cases hcm : c ∈ d.cols
    · have hidx : colIdx (d.cols ++ [k]) c = colIdx d.cols c := colIdx_append_left hcm
      obtain ⟨j, hj⟩ := colIdx_mem hcm
      have hjlt : j < d.cols.length := colIdx_lt hj
      simp only [DF.colVals, List.map_map]
      apply List.map_congr_left
      intro r hr
      have hlen : j < r.length := by rw [hR r hr]; exact hjlt
      simp [DF.getCell, hidx, hj, List.getD_eq_getElem?_getD,
        List.getElem?_append_left hlen]
    · have hidx : colIdx (d.cols ++ [k]) c = none := by
        apply colIdx_eq_none.mpr
        simp [hcm, hne]
      have hidx0 : colIdx d.cols c = none := colIdx_eq_none.mpr hcm
      simp [DF.colVals, DF.getCell, hidx, hidx0, List.map_map]

/-!  Extensionality for rectangular frames with distinct column names.  -/

theorem DF.ext_of_colVals {d1 d2 : DF} (hc : d1.cols = d2.cols)
    (hnd : d1.cols.Nodup) (hR1 : d1.Rect) (hR2 : d2.Rect)
    (hlen : d1.rows.length = d2.rows.length)
    (hv : ∀ k ∈ d1.cols, d1.colVals k = d2.colVals k) : d1 = d2 := by
  obtain ⟨cols1, rows1⟩ := d1
  obtain ⟨cols2, rows2⟩ := d2
  simp only at hc
  subst hc
  dsimp only at hlen
  simp only [DF.mk.injEq, true_and]
  apply List.ext_getElem?
  intro i
  by_cases hi : i < rows1.length
  · have hi2 : i < rows2.length := by omega
    obtain ⟨r1, hr1⟩ : ∃ r, rows1[i]? = some r := ⟨rows1[i], by simp [hi]⟩
    obtain ⟨r2, hr2⟩ : ∃ r, rows2[i]? = some r := ⟨rows2[i], by simp [hi2]⟩
    rw [hr1, hr2]
    have hm1 : r1 ∈ rows1 := List.getElem?_mem hr1
    have hm2 : r2 ∈ rows2 := List.getElem?_mem hr2
    have hl1 : r1.length = cols1.length := hR1 r1 hm1
    have hl2 : r2.length = cols1.length := hR2 r2 hm2
    congr 1
    apply List.ext_getElem?
    intro j
    by_cases hj : j < cols1.length
    · obtain ⟨k, hk⟩ : ∃ k, cols1[j]? = some k := ⟨cols1[j], by simp [hj]⟩
      have hkj : colIdx cols1 k = some j := colIdx_of_nodup hnd hk
      have hkm : k ∈ cols1 := List.getElem?_mem hk
      have hvk := hv k hkm
      simp only [DF.colVals] at hvk
      have := congrArg (fun l => l[i]?) hvk
      simp only [List.getElem?_map, hr1, hr2, Option.map_some'] at this
      have hcell : DF.getCell ⟨cols1, rows1⟩ k r1 = DF.getCell ⟨cols1, rows2⟩ k r2 :=
        Option.some.inj this
      simp only [DF.getCell, hkj] at hcell
      rw [List.getD_eq_getElem?_getD, List.getD_eq_getElem?_getD] at hcell
      have hj1 : j < r1.length := by omega
      have hj2 : j < r2.length := by omega
      simpa [hj1, hj2] using hcell
    · rw [List.getElem?_eq_none (by omega), List.getElem?_eq_none (by omega)]
  · rw [List.getElem?_eq_none (by omega), List.getElem?_eq_none (by omega)]

/-!  Generic list helper: a rowwise binary computation is a zip of columns.  -/

theorem map_zipWith_pair {α β γ δ : Type} (g : β → γ → δ) (A : α → β) (B : α → γ)
    (l : List α) : l.map (fun r => g (A r) (B r)) = List.zipWith g (l.map A) (l.map B) := by
  induction l with
  | nil => rfl
  | cons x l ih => simp only [List.map_cons, List.zipWith_cons_cons, ih]

/-!  Shape lemmas for the elapsed step.  -/

theorem addElapsed_rect {d : DF} (hR : d.Rect) : (addElapsed d).Rect := by
  unfold addElapsed
  split <;> exact setCol_rect hR

theorem addElapsed_rows_length {d : DF} : (addElapsed d).rows.length = d.rows.length := by
  unfold addElapsed
  split <;> exact setCol_rows_length

theorem addElapsed_nodup {d : DF} (h : d.cols.Nodup) : (addElapsed d).cols.Nodup := by
  unfold addElapsed
  split <;> exact setCol_nodup h

theorem addElapsed_mem_iff {d : DF} {c : String} (hne : c ≠ "elapsed_min") :
    c ∈ (addElapsed d).cols ↔ c ∈ d.cols := by
  unfold addElapsed
  split <;> exact mem_setCol_iff hne

theorem addElapsed_colVals_ne {d : DF} {c : String} (hR : d.Rect)
    (hne : c ≠ "elapsed_min") : (addElapsed d).colVals c = d.colVals c := by
  unfold addElapsed
  split <;> exact colVals_setCol_ne hR hne

theorem mem_addElapsed {d : DF} : "elapsed_min" ∈ (addElapsed d).cols := by
  unfold addElapsed
  split <;> exact mem_setCol_self

theorem addElapsed_cols_of_mem {d : DF} (h : "elapsed_min" ∈ d.cols) :
    (addElapsed d).cols = d.cols := by
  unfold addElapsed
  split <;> exact setCol_cols_of_mem h

theorem addElapsed_colVals {d : DF} (hR : d.Rect) :
    (addElapsed d).colVals "elapsed_min" =
      if "elapsed_time" ∈ d.cols then
        (d.colVals "elapsed_time").map (fun x => cellRound2 (cellDiv x (Cell.num 60)))
      else List.replicate d.rows.length Cell.null := by
  unfold addElapsed
  by_cases h : "elapsed_time" ∈ d.cols
  · rw [if_pos h, if_pos h, colVals_setCol_self hR, DF.colVals, List.map_map]
    rfl
  · rw [if_neg h, if_neg h, colVals_setCol_self hR, List.map_const']

/-!  Shape lemmas for the distance step.  -/

theorem addDistance_rect {d : DF} (hR : d.Rect) : (addDistance d).Rect := by
  unfold addDistance
  split <;> exact setCol_rect hR

theorem addDistance_rows_length {d : DF} : (addDistance d).rows.length = d.rows.length := by
  unfold addDistance
  split <;> exact setCol_rows_length

theorem addDistance_nodup {d : DF} (h : d.cols.Nodup) : (addDistance d).cols.Nodup := by
  unfold addDistance
  split <;> exact setCol_nodup h

theorem addDistance_mem_iff {d : DF} {c : String} (hne : c ≠ "distance_km") :
    c ∈ (addDistance d).cols ↔ c ∈ d.cols := by
  unfold addDistance
  split <;> exact mem_setCol_iff hne

theorem addDistance_colVals_ne {d : DF} {c : String} (hR : d.Rect)
    (hne : c ≠ "distance_km") : (addDistance d).colVals c = d.colVals c := by
  unfold addDistance
  split <;> exact colVals_setCol_ne hR hne

theorem mem_addDistance {d : DF} : "distance_km" ∈ (addDistance d).cols := by
  unfold addDistance
  split <;> exact mem_setCol_self

theorem addDistance_cols_of_mem {d : DF} (h : "distance_km" ∈ d.cols) :
    (addDistance d).cols = d.cols := by
  unfold addDistance
  split <;> exact setCol_cols_of_mem h

theorem addDistance_colVals {d : DF} (hR : d.Rect) :
    (addDistance d).colVals "distance_km" =
      if "distance" ∈ d.cols then
        (d.colVals "distance").map (fun x => cellRound2 (cellDiv x (Cell.num 1000)))
      else List.replicate d.rows.length Cell.null := by
  unfold addDistance
  by_cases h : "distance" ∈ d.cols
  · rw [if_pos h, if_pos h, colVals_setCol_self hR, DF.colVals, List.map_map]
    rfl
  · rw [if_neg h, if_neg h, colVals_setCol_self hR, List.map_const']

/-!  Shape lemmas for the speed step.  -/

theorem addSpeed_rect {d : DF} (hR : d.Rect) : (addSpeed d).Rect := by
  unfold addSpeed addSpeedDiv
  split <;> exact setCol_rect hR

theorem addSpeed_rows_length {d : DF} : (addSpeed d).rows.length = d.rows.length := by
  unfold addSpeed addSpeedDiv
  split <;> exact setCol_rows_length

theorem addSpeed_nodup {d : DF} (h : d.cols.Nodup) : (addSpeed d).cols.Nodup := by
  unfold addSpeed addSpeedDiv
  split <;> exact setCol_nodup h

theorem addSpeed_mem_iff {d : DF} {c : String} (hne : c ≠ "speed_mins_per_km") :
    c ∈ (addSpeed d).cols ↔ c ∈ d.cols := by
  unfold addSpeed addSpeedDiv
  split <;> exact mem_setCol_iff hne

theorem addSpeed_colVals_ne {d : DF} {c : String} (hR : d.Rect)
    (hne : c ≠ "speed_mins_per_km") : (addSpeed d).colVals c = d.colVals c := by
  unfold addSpeed addSpeedDiv
  split <;> exact colVals_setCol_ne hR hne

theorem mem_addSpeed {d : DF} : "speed_mins_per_km" ∈ (addSpeed d).cols := by
  unfold addSpeed addSpeedDiv
  split <;> exact mem_setCol_self

theorem addSpeed_cols_of_mem {d : DF} (h : "speed_mins_per_km" ∈ d.cols) :
    (addSpeed d).cols = d.cols := by
  unfold addSpeed addSpeedDiv
  split <;> exact setCol_cols_of_mem h

theorem addSpeed_colVals {d : DF} (hR : d.Rect) (hg : speedGuard d) :
    (addSpeed d).colVals "speed_mins_per_km" =
      List.zipWith (fun a b => cellRound2 (replaceInf (cellDiv a b)))
        (d.colVals "elapsed_min") (d.colVals "distance_km") := by
  unfold addSpeed addSpeedDiv
  rw [if_pos hg, colVals_setCol_self hR]
  unfold DF.colVals
  exact map_zipWith_pair (fun a b => cellRound2 (replaceInf (cellDiv a b)))
    (d.getCell "elapsed_min") (d.getCell "distance_km") d.rows

/-!  Shape lemmas for the date step.  -/

theorem addDate_rect {d : DF} (hR : d.Rect) : (addDate d).Rect := by
  unfold addDate dateParseStep dateStrStep
  split
  · exact setCol_rect (setCol_rect hR)
  · exact setCol_rect hR

theorem addDate_rows_length {d : DF} : (addDate d).rows.length = d.rows.length := by
  unfold addDate dateParseStep dateStrStep
  split
  · rw [setCol_rows_length, setCol_rows_length]
  · exact setCol_rows_length

theorem addDate_nodup {d : DF} (h : d.cols.Nodup) : (addDate d).cols.Nodup := by
  unfold addDate dateParseStep dateStrStep
  split
  · exact setCol_nodup (setCol_nodup h)
  · exact setCol_nodup h

theorem addDate_mem_iff {d : DF} {c : String} (hne : c ≠ "date") :
    c ∈ (addDate d).cols ↔ c ∈ d.cols := by
  unfold addDate dateParseStep dateStrStep
  split
  · rw [mem_setCol_iff hne, mem_setCol_iff hne]
  · exact mem_setCol_iff hne

theorem addDate_colVals_ne {d : DF} {c : String} (hR : d.Rect)
    (hne : c ≠ "date") : (addDate d).colVals c = d.colVals c := by
  unfold addDate dateParseStep dateStrStep
  split
  · rw [colVals_setCol_ne (setCol_rect hR) hne, colVals_setCol_ne hR hne]
  · exact colVals_setCol_ne hR hne

theorem mem_addDate {d : DF} : "date" ∈ (addDate d).cols := by
  unfold addDate dateParseStep dateStrStep
  split <;> exact mem_setCol_self

theorem addDate_cols_of_mem {d : DF} (h : "date" ∈ d.cols) :
    (addDate d).cols = d.cols := by
  unfold addDate dateParseStep dateStrStep
  split
  · rw [setCol_cols_of_mem, setCol_cols_of_mem h]
    rw [setCol_cols_of_mem h]
    exact h
  · exact setCol_cols_of_mem h

theorem addDate_colVals {d : DF} (hR : d.Rect) :
    (addDate d).colVals "date" =
      if "start_date_local" ∈ d.cols then
        (d.colVals "start_date_local").map
          (fun x => parseToDate (Cell.str (stripTime (cellToStr x))))
      else List.replicate d.rows.length Cell.null := by
  unfold addDate
  by_cases h : "start_date_local" ∈ d.cols
  · rw [if_pos h, if_pos h]
    have hR1 : (dateStrStep d).Rect := setCol_rect hR
    unfold dateParseStep
    rw [colVals_setCol_self hR1]
    have hcomp :
        (dateStrStep d).rows.map (fun r => parseToDate ((dateStrStep d).getCell "date" r))
          = ((dateStrStep d).colVals "date").map parseToDate := by
      rw [DF.colVals, List.map_map]
      rfl
    rw [hcomp]
    unfold dateStrStep
    rw [colVals_setCol_self hR, List.map_map, DF.colVals, List.map_map]
    rfl
  · rw [if_neg h, if_neg h, colVals_setCol_self hR, List.map_const']

/-!  Master lemmas for the whole tidy pipeline.  -/

theorem tidyDF_rect {d : DF} (hR : d.Rect) : (tidyDF d).Rect :=
  addDate_rect (addSpeed_rect (addDistance_rect (addElapsed_rect hR)))

theorem tidyDF_rows_length {d : DF} : (tidyDF d).rows.length = d.rows.length := by
  unfold tidyDF
  rw [addDate_rows_length, addSpeed_rows_length, addDistance_rows_length,
    addElapsed_rows_length]

theorem tidyDF_nodup {d : DF} (h : d.cols.Nodup) : (tidyDF d).cols.Nodup :=
  addDate_nodup (addSpeed_nodup (addDistance_nodup (addElapsed_nodup h)))

theorem tidyDF_mem_iff {d : DF} {c : String} (h1 : c ≠ "elapsed_min")
    (h2 : c ≠ "distance_km") (h3 : c ≠ "speed_mins_per_km") (h4 : c ≠ "date") :
    c ∈ (tidyDF d).cols ↔ c ∈ d.cols := by
  unfold tidyDF
  rw [addDate_mem_iff h4, addSpeed_mem_iff h3, addDistance_mem_iff h2,
    addElapsed_mem_iff h1]

theorem tidyDF_colVals_other {d : DF} {c : String} (hR : d.Rect)
    (h1 : c ≠ "elapsed_min") (h2 : c ≠ "distance_km")
    (h3 : c ≠ "speed_mins_per_km") (h4 : c ≠ "date") :
    (tidyDF d).colVals c = d.colVals c := by
  have hR1 := addElapsed_rect hR
  have hR2 := addDistance_rect hR1
  have hR3 := addSpeed_rect hR2
  unfold tidyDF
  rw [addDate_colVals_ne hR3 h4, addSpeed_colVals_ne hR2 h3,
    addDistance_colVals_ne hR1 h2, addElapsed_colVals_ne hR h1]

theorem mem_tidyDF_elapsed {d : DF} : "elapsed_min" ∈ (tidyDF d).cols := by
  unfold tidyDF
  rw [addDate_mem_iff (by decide), addSpeed_mem_iff (by decide),
    addDistance_mem_iff (by decide)]
  exact mem_addElapsed

theorem mem_tidyDF_dist {d : DF} : "distance_km" ∈ (tidyDF d).cols := by
  unfold tidyDF
  rw [addDate_mem_iff (by decide), addSpeed_mem_iff (by decide)]
  exact mem_addDistance

theorem mem_tidyDF_speed {d : DF} : "speed_mins_per_km" ∈ (tidyDF d).cols := by
  unfold tidyDF
  rw [addDate_mem_iff (by decide)]
  exact mem_addSpeed

theorem mem_tidyDF_date {d : DF} : "date" ∈ (tidyDF d).cols := by
  unfold tidyDF
  exact mem_addDate

theorem tidyDF_colVals_elapsed {d : DF} (hR : d.Rect) :
    (tidyDF d).colVals "elapsed_min" =
      if "elapsed_time" ∈ d.cols then
        (d.colVals "elapsed_time").map (fun x => cellRound2 (cellDiv x (Cell.num 60)))
      else List.replicate d.rows.length Cell.null := by
  have hR1 := addElapsed_rect hR
  have hR2 := addDistance_rect hR1
  have hR3 := addSpeed_rect hR2
  unfold tidyDF
  rw [addDate_colVals_ne hR3 (by decide), addSpeed_colVals_ne hR2 (by decide),
    addDistance_colVals_ne hR1 (by decide), addElapsed_colVals hR]

theorem tidyDF_colVals_dist {d : DF} (hR : d.Rect) :
    (tidyDF d).colVals "distance_km" =
      if "distance" ∈ d.cols then
        (d.colVals "distance").map (fun x => cellRound2 (cellDiv x (Cell.num 1000)))
      else List.replicate d.rows.length Cell.null := by
  have hR1 := addElapsed_rect hR
  have hR2 := addDistance_rect hR1
  have hR3 := addSpeed_rect hR2
  unfold tidyDF
  rw [addDate_colVals_ne hR3 (by decide), addSpeed_colVals_ne hR2 (by decide),
    addDistance_colVals hR1, addElapsed_colVals_ne hR (by decide),
    addElapsed_rows_length]
  have hiff : ("distance" ∈ (addElapsed d).cols) ↔ "distance" ∈ d.cols :=
    addElapsed_mem_iff (by decide)
  by_cases h : "distance" ∈ d.cols
  · rw [if_pos (hiff.mpr h), if_pos h]
  · rw [if_neg (fun hh => h (hiff.mp hh)), if_neg h]

theorem tidyDF_colVals_speed {d : DF} (hR : d.Rect) :
    (tidyDF d).colVals "speed_mins_per_km" =
      List.zipWith (fun a b => cellRound2 (replaceInf (cellDiv a b)))
        ((tidyDF d).colVals "elapsed_min") ((tidyDF d).colVals "distance_km") := by
  have hR1 := addElapsed_rect hR
  have hR2 := addDistance_rect hR1
  have hR3 := addSpeed_rect hR2
  have hg : speedGuard (addDistance (addElapsed d)) := by
    constructor
    · exact (addDistance_mem_iff (by decide)).mpr mem_addElapsed
    · exact mem_addDistance
  unfold tidyDF
  rw [addDate_colVals_ne hR3 (show ("speed_mins_per_km" : String) ≠ "date" by decide),
    addSpeed_colVals hR2 hg,
    addDate_colVals_ne hR3 (show ("elapsed_min" : String) ≠ "date" by decide),
    addSpeed_colVals_ne hR2 (show ("elapsed_min" : String) ≠ "speed_mins_per_km" by decide),
    addDate_colVals_ne hR3 (show ("distance_km" : String) ≠ "date" by decide),
    addSpeed_colVals_ne hR2 (show ("distance_km" : String) ≠ "speed_mins_per_km" by decide)]

theorem tidyDF_colVals_date {d : DF} (hR : d.Rect) :
    (tidyDF d).colVals "date" =
      if "start_date_local" ∈ d.cols then
        (d.colVals "start_date_local").map
          (fun x => parseToDate (Cell.str (stripTime (cellToStr x))))
      else List.replicate d.rows.length Cell.null := by
  have hR1 := addElapsed_rect hR
  have hR2 := addDistance_rect hR1
  have hR3 := addSpeed_rect hR2
  unfold tidyDF
  rw [addDate_colVals hR3,
    addSpeed_colVals_ne hR2 (by decide), addDistance_colVals_ne hR1 (by decide),
    addElapsed_colVals_ne hR (by decide),
    addSpeed_rows_length, addDistance_rows_length, addElapsed_rows_length]
  have hiff : ("start_date_local" ∈ (addSpeed (addDistance (addElapsed d))).cols) ↔
      "start_date_local" ∈ d.cols := by
    rw [addSpeed_mem_iff (by decide), addDistance_mem_iff (by decide),
      addElapsed_mem_iff (by decide)]
  by_cases h : "start_date_local" ∈ d.cols
  · rw [if_pos (hiff.mpr h), if_pos h]
  · rw [if_neg (fun hh => h (hiff.mp hh)), if_neg h]

theorem tidyDF_cols_of_all_mem {d : DF} (h1 : "elapsed_min" ∈ d.cols)
    (h2 : "distance_km" ∈ d.cols) (h3 : "speed_mins_per_km" ∈ d.cols)
    (h4 : "date" ∈ d.cols) : (tidyDF d).cols = d.cols := by
  have e1 : (addElapsed d).cols = d.cols := addElapsed_cols_of_mem h1
  have m2 : "distance_km" ∈ (addElapsed d).cols := by rw [e1]; exact h2
  have e2 : (addDistance (addElapsed d)).cols = d.cols := by
    rw [addDistance_cols_of_mem m2, e1]
  have m3 : "speed_mins_per_km" ∈ (addDistance (addElapsed d)).cols := by
    rw [e2]; exact h3
  have e3 : (addSpeed (addDistance (addElapsed d))).cols = d.cols := by
    rw [addSpeed_cols_of_mem m3, e2]
  have m4 : "date" ∈ (addSpeed (addDistance (addElapsed d))).cols := by
    rw [e3]; exact h4
  unfold tidyDF
  rw [addDate_cols_of_mem m4, e3]

theorem tidyDF_cols_append {d : DF} (h1 : "elapsed_min" ∉ d.cols)
    (h2 : "distance_km" ∉ d.cols) (h3 : "speed_mins_per_km" ∉ d.cols)
    (h4 : "date" ∉ d.cols) :
    (tidyDF d).cols
      = d.cols ++ ["elapsed_min", "distance_km", "speed_mins_per_km", "date"] := by
  have e1 : (addElapsed d).cols = d.cols ++ ["elapsed_min"] := by
    unfold addElapsed
    split <;> exact setCol_cols_of_not_mem h1
  have m2 : "distance_km" ∉ (addElapsed d).cols := by
    rw [e1]
    simp [h2]
  have e2 : (addDistance (addElapsed d)).cols
      = d.cols ++ ["elapsed_min", "distance_km"] := by
    unfold addDistance
    split <;> rw [setCol_cols_of_not_mem m2, e1] <;> simp
  have m3 : "speed_mins_per_km" ∉ (addDistance (addElapsed d)).cols := by
    rw [e2]
    simp [h3]
  have e3 : (addSpeed (addDistance (addElapsed d))).cols
      = d.cols ++ ["elapsed_min", "distance_km", "speed_mins_per_km"] := by
    unfold addSpeed addSpeedDiv
    split <;> rw [setCol_cols_of_not_mem m3, e2] <;> simp
  have m4 : "date" ∉ (addSpeed (addDistance (addElapsed d))).cols := by
    rw [e3]
    simp [h4]
  unfold tidyDF
  unfold addDate
  split
  · unfold dateParseStep dateStrStep
    rw [setCol_cols_of_mem (by rw [setCol_cols_of_not_mem m4]; simp),
      setCol_cols_of_not_mem m4, e3]
    simp
  · rw [setCol_cols_of_not_mem m4, e3]
    simp

/-!  Idempotence of the tidy pipeline on well-formed frames.  -/

theorem tidyDF_idem {d : DF} (hnd : d.cols.Nodup) (hR : d.Rect) :
    tidyDF (tidyDF d) = tidyDF d := by
  have hndT := tidyDF_nodup hnd
  have hRT := tidyDF_rect hR
  have hem : (tidyDF (tidyDF d)).colVals "elapsed_min"
      = (tidyDF d).colVals "elapsed_min" := by
    rw [tidyDF_colVals_elapsed hRT]
    have hv : (tidyDF d).colVals "elapsed_time" = d.colVals "elapsed_time" :=
      tidyDF_colVals_other hR (by decide) (by decide) (by decide) (by decide)
    have hiff : ("elapsed_time" ∈ (tidyDF d).cols) ↔ "elapsed_time" ∈ d.cols :=
      tidyDF_mem_iff (by decide) (by decide) (by decide) (by decide)
    rw [hv, tidyDF_rows_length, tidyDF_colVals_elapsed hR]
    by_cases he : "elapsed_time" ∈ d.cols
    · rw [if_pos (hiff.mpr he), if_pos he]
    · rw [if_neg (fun hh => he (hiff.mp hh)), if_neg he]
  have hdk : (tidyDF (tidyDF d)).colVals "distance_km"
      = (tidyDF d).colVals "distance_km" := by
    rw [tidyDF_colVals_dist hRT]
    have hv : (tidyDF d).colVals "distance" = d.colVals "distance" :=
      tidyDF_colVals_other hR (by decide) (by decide) (by decide) (by decide)
    have hiff : ("distance" ∈ (tidyDF d).cols) ↔ "distance" ∈ d.cols :=
      tidyDF_mem_iff (by decide) (by decide) (by decide) (by decide)
    rw [hv, tidyDF_rows_length, tidyDF_colVals_dist hR]
    by_cases he : "distance" ∈ d.cols
    · rw [if_pos (hiff.mpr he), if_pos he]
    · rw [if_neg (fun hh => he (hiff.mp hh)), if_neg he]
  have hdate : (tidyDF (tidyDF d)).colVals "date" = (tidyDF d).colVals "date" := by
    rw [tidyDF_colVals_date hRT]
    have hv : (tidyDF d).colVals "start_date_local" = d.colVals "start_date_local" :=
      tidyDF_colVals_other hR (by decide) (by decide) (by decide) (by decide)
    have hiff : ("start_date_local" ∈ (tidyDF d).cols) ↔ "start_date_local" ∈ d.cols :=
      tidyDF_mem_iff (by decide) (by decide) (by decide) (by decide)
    rw [hv, tidyDF_rows_length, tidyDF_colVals_date hR]
    by_cases he : "start_date_local" ∈ d.cols
    · rw [if_pos (hiff.mpr he), if_pos he]
    · rw [if_neg (fun hh => he (hiff.mp hh)), if_neg he]
  have hsp : (tidyDF (tidyDF d)).colVals "speed_mins_per_km"
      = (tidyDF d).colVals "speed_mins_per_km" := by
    rw [tidyDF_colVals_speed hRT, hem, hdk, ← tidyDF_colVals_speed hR]
  apply DF.ext_of_colVals
  · exact tidyDF_cols_of_all_mem mem_tidyDF_elapsed mem_tidyDF_dist
      mem_tidyDF_speed mem_tidyDF_date
  · exact tidyDF_nodup hndT
  · exact tidyDF_rect hRT
  · exact hRT
  · exact tidyDF_rows_length
  · intro k hk
    by_cases h1 : k = "elapsed_min"
    · subst h1; exact hem
    by_cases h2 : k = "distance_km"
    · subst h2; exact hdk
    by_cases h3 : k = "speed_mins_per_km"
    · subst h3; exact hsp
    by_cases h4 : k = "date"
    · subst h4; exact hdate
    exact tidyDF_colVals_other hRT h1 h2 h3 h4

/-!  Well-formedness of json normalization.  -/

theorem jsonNormalize_rect (rs : List ActivityRec) : (jsonNormalize rs).Rect := by
  intro r hr
  simp only [jsonNormalize, List.mem_map] at hr
  obtain ⟨r0, _, rfl⟩ := hr
  simp [jsonNormalize]

theorem insertKey_nodup {ks : List String} {k : String} (h : ks.Nodup) :
    (insertKey ks k).Nodup := by
  by_cases h2 : k ∈ ks
  · simpa [insertKey, h2] using h
  · simp [insertKey, h2, List.nodup_append, h]

theorem recKeysInto_nodup (r : ActivityRec) :
    ∀ ks : List String, ks.Nodup → (recKeysInto ks r).Nodup := by
  induction r with
  | nil => intro ks h; exact h
  | cons kv r ih =>
    intro ks h
    exact ih _ (insertKey_nodup h)

theorem allKeys_nodup (rs : List ActivityRec) : (allKeys rs).Nodup := by
  suffices h : ∀ ks : List String, ks.Nodup →
      (rs.foldl recKeysInto ks).Nodup by
    exact h [] (by simp)
  induction rs with
  | nil => intro ks h; exact h
  | cons r rs ih =>
    intro ks h
    exact ih _ (recKeysInto_nodup r ks h)

theorem jsonNormalize_nodup (rs : List ActivityRec) :
    (jsonNormalize rs).cols.Nodup := allKeys_nodup rs

theorem tidyDF_isEmpty_false {d : DF} (hrows : d.rows ≠ []) :
    (tidyDF d).isEmpty = false := by
  have h1 : (tidyDF d).rows ≠ [] := by
    intro h
    apply hrows
    have hl := @tidyDF_rows_length d
    rw [h] at hl
    exact List.eq_nil_of_length_eq_zero hl.symm
  have h2 : (tidyDF d).cols ≠ [] := List.ne_nil_of_mem mem_tidyDF_date
  simp [DF.isEmpty, List.isEmpty_iff, h1, h2]

/-!  Lemmas about the pagination loop.  -/

theorem fetchLoop_stop {pages : ℕ → PageResult} {n perPage fuel page : ℕ}
    {acc : List ActivityRec} (h : ¬ acc.length < n) :
    fetchLoop pages n perPage fuel page acc = ⟨[], acc, false⟩ := by
  cases fuel with
  | zero => rfl
  | succ fuel => simp [fetchLoop, h]

theorem fetchLoop_req_nonempty {pages : ℕ → PageResult} {n perPage fuel page : ℕ}
    {acc : List ActivityRec}
    (h : (fetchLoop pages n perPage fuel page acc).requested ≠ []) :
    acc.length < n := by
  by_cases hlt : acc.length < n
  · exact hlt
  · rw [fetchLoop_stop hlt] at h
    simp at h

theorem fetchLoop_head {pages : ℕ → PageResult} {n perPage fuel page : ℕ}
    {acc : List ActivityRec} (hf : 0 < fuel) (h : acc.length < n) :
    page ∈ (fetchLoop pages n perPage fuel page acc).requested := by
  cases fuel with
  | zero => simp at hf
  | succ fuel =>
    unfold fetchLoop
    rw [if_pos h]
    cases hp : pages page with
    | raise => simp
    | httpError => simp
    | errorObject => simp
    | ok recs =>
      cases recs with
      | nil => simp
      | cons rec0 rest =>
        dsimp only
        split <;> simp

theorem fetchLoop_raise_eq {pages : ℕ → PageResult} {n perPage fuel page : ℕ}
    {acc : List ActivityRec} (h : acc.length < n)
    (hpg : pages page = PageResult.raise) :
    fetchLoop pages n perPage (fuel + 1) page acc = ⟨[page], acc, true⟩ := by
  rw [fetchLoop.eq_2, if_pos h, hpg]

theorem fetchLoop_http_eq {pages : ℕ → PageResult} {n perPage fuel page : ℕ}
    {acc : List ActivityRec} (h : acc.length < n)
    (hpg : pages page = PageResult.httpError) :
    fetchLoop pages n perPage (fuel + 1) page acc = ⟨[page], acc, false⟩ := by
  rw [fetchLoop.eq_2, if_pos h, hpg]

theorem fetchLoop_errObj_eq {pages : ℕ → PageResult} {n perPage fuel page : ℕ}
    {acc : List ActivityRec} (h : acc.length < n)
    (hpg : pages page = PageResult.errorObject) :
    fetchLoop pages n perPage (fuel + 1) page acc = ⟨[page], acc, false⟩ := by
  rw [fetchLoop.eq_2, if_pos h, hpg]

theorem fetchLoop_oknil_eq {pages : ℕ → PageResult} {n perPage fuel page : ℕ}
    {acc : List ActivityRec} (h : acc.length < n)
    (hpg : pages page = PageResult.ok []) :
    fetchLoop pages n perPage (fuel + 1) page acc = ⟨[page], acc, false⟩ := by
  rw [fetchLoop.eq_2, if_pos h, hpg]

theorem fetchLoop_short_eq {pages : ℕ → PageResult} {n perPage fuel page : ℕ}
    {acc : List ActivityRec} {rec0 : ActivityRec} {rest : List ActivityRec}
    (h : acc.length < n) (hpg : pages page = PageResult.ok (rec0 :: rest))
    (hshort : (rec0 :: rest).length < perPage) :
    fetchLoop pages n perPage (fuel + 1) page acc
      = ⟨[page], acc ++ rec0 :: rest, false⟩ := by
  rw [fetchLoop.eq_2, if_pos h, hpg]
  dsimp only
  rw [if_pos hshort]

theorem fetchLoop_continue_eq {pages : ℕ → PageResult} {n perPage fuel page : ℕ}
    {acc : List ActivityRec} {rec0 : ActivityRec} {rest : List ActivityRec}
    (h : acc.length < n) (hpg : pages page = PageResult.ok (rec0 :: rest))
    (hfull : ¬ (rec0 :: rest).length < perPage) :
    fetchLoop pages n perPage (fuel + 1) page acc
      = ⟨page :: (fetchLoop pages n perPage fuel (page + 1) (acc ++ rec0 :: rest)).requested,
         (fetchLoop pages n perPage fuel (page + 1) (acc ++ rec0 :: rest)).acc,
         (fetchLoop pages n perPage fuel (page + 1) (acc ++ rec0 :: rest)).raised⟩ := by
  rw [fetchLoop.eq_2, if_pos h, hpg]
  dsimp only
  rw [if_neg hfull]

theorem fetchLoop_req_range' (pages : ℕ → PageResult) (n perPage : ℕ) :
    ∀ (fuel page : ℕ) (acc : List ActivityRec),
      (fetchLoop pages n perPage fuel page acc).requested
        = List.range' page (fetchLoop pages n perPage fuel page acc).requested.length := by
  intro fuel
  induction fuel with
  | zero => intro page acc; rfl
  | succ fuel ih =>
    intro page acc
    by_cases h : acc.length < n
    · unfold fetchLoop
      rw [if_pos h]
      cases hp : pages page with
      | raise => rfl
      | httpError => rfl
      | errorObject => rfl
      | ok recs =>
        cases recs with
        | nil => rfl
        | cons rec0 rest =>
          dsimp only
          by_cases hshort : (rec0 :: rest).length < perPage
          · rw [if_pos hshort]
            rfl
          · rw [if_neg hshort]
            dsimp only
            rw [List.length_cons, List.range'_succ]
            congr 1
            exact ih (page + 1) (acc ++ rec0 :: rest)
    · rw [fetchLoop_stop h]
      rfl

theorem fetchLoop_acc_eq (pages : ℕ → PageResult) (n perPage : ℕ) :
    ∀ (fuel page : ℕ) (acc : List ActivityRec),
      (fetchLoop pages n perPage fuel page acc).acc
        = acc ++ pagesRecs pages (fetchLoop pages n perPage fuel page acc).requested := by
  intro fuel
  induction fuel with
  | zero => intro page acc; simp [fetchLoop, pagesRecs]
  | succ fuel ih =>
    intro page acc
    by_cases h : acc.length < n
    · unfold fetchLoop
      rw [if_pos h]
      cases hp : pages page with
      | raise => simp [pagesRecs, okRecs, hp]
      | httpError => simp [pagesRecs, okRecs, hp]
      | errorObject => simp [pagesRecs, okRecs, hp]
      | ok recs =>
        cases recs with
        | nil => simp [pagesRecs, okRecs, hp]
        | cons rec0 rest =>
          dsimp only
          by_cases hshort : (rec0 :: rest).length < perPage
          · rw [if_pos hshort]
            simp [pagesRecs, okRecs, hp]
          · rw [if_neg hshort]
            dsimp only
            rw [ih (page + 1) (acc ++ rec0 :: rest)]
            simp [pagesRecs, okRecs, hp, List.append_assoc]
    · rw [fetchLoop_stop h]
      simp [pagesRecs]

theorem fetchLoop_full_of_next (pages : ℕ → PageResult) (n perPage : ℕ) :
    ∀ (fuel page : ℕ) (acc : List ActivityRec) (p : ℕ),
      p ∈ (fetchLoop pages n perPage fuel page acc).requested →
      p + 1 ∈ (fetchLoop pages n perPage fuel page acc).requested →
      ∃ recs, pages p = PageResult.ok recs ∧ perPage ≤ recs.length ∧
        (acc ++ pagesRecs pages (List.range' page (p + 1 - page))).length < n := by
  intro fuel
  induction fuel with
  | zero =>
    intro page acc p hp hp1
    simp [fetchLoop] at hp
  | succ fuel ih =>
    intro page acc p hp hp1
    by_cases h : acc.length < n
    · unfold fetchLoop at hp hp1
      rw [if_pos h] at hp hp1
      cases hpg : pages page with
      | raise =>
        rw [hpg] at hp hp1
        simp at hp hp1
        omega
      | httpError =>
        rw [hpg] at hp hp1
        simp at hp hp1
        omega
      | errorObject =>
        rw [hpg] at hp hp1
        simp at hp hp1
        omega
      | ok recs =>
        cases recs with
        | nil =>
          rw [hpg] at hp hp1
          simp at hp hp1
          omega
        | cons rec0 rest =>
          rw [hpg] at hp hp1
          dsimp only at hp hp1
          by_cases hshort : (rec0 :: rest).length < perPage
          · rw [if_pos hshort] at hp hp1
            simp at hp hp1
            omega
          · rw [if_neg hshort] at hp hp1
            dsimp only at hp hp1
            rcases List.mem_cons.mp hp with rfl | hpmem
            · refine ⟨rec0 :: rest, hpg, by omega, ?_⟩
              have hne : p + 1 ∈
                  (fetchLoop pages n perPage fuel (p + 1) (acc ++ rec0 :: rest)).requested := by
                rcases List.mem_cons.mp hp1 with h1 | h1
                · omega
                · exact h1
              have hlt : (acc ++ rec0 :: rest).length < n :=
                fetchLoop_req_nonempty (List.ne_nil_of_mem hne)
              have hone : p + 1 - p = 1 := by omega
              rw [hone]
              simpa [pagesRecs, okRecs, hpg] using hlt
            · have hrange := fetchLoop_req_range' pages n perPage fuel (page + 1)
                (acc ++ rec0 :: rest)
              have hge : page + 1 ≤ p := by
                rw [hrange] at hpmem
                exact (List.mem_range'_1.mp hpmem).1
              have hp1mem : p + 1 ∈
                  (fetchLoop pages n perPage fuel (page + 1) (acc ++ rec0 :: rest)).requested := by
                rcases List.mem_cons.mp hp1 with h1 | h1
                · omega
                · exact h1
              obtain ⟨recs', hok, hlen, hcount⟩ :=
                ih (page + 1) (acc ++ rec0 :: rest) p hpmem hp1mem
              refine ⟨recs', hok, hlen, ?_⟩
              have hsplit : List.range' page (p + 1 - page)
                  = page :: List.range' (page + 1) (p - page) := by
                have h2 : p + 1 - page = (p - page) + 1 := by omega
                rw [h2, List.range'_succ]
              have h3 : p + 1 - (page + 1) = p - page := by omega
              rw [h3] at hcount
              rw [hsplit]
              simp only [pagesRecs, okRecs, hpg, List.length_append,
                List.length_cons] at hcount ⊢
              omega
    · rw [fetchLoop_stop h] at hp
      simp at hp

theorem fetchLoop_next_of_full (pages : ℕ → PageResult) (n perPage : ℕ) :
    ∀ (fuel page : ℕ) (acc : List ActivityRec) (p : ℕ) (recs : List ActivityRec),
      n < acc.length + fuel → 1 ≤ perPage →
      p ∈ (fetchLoop pages n perPage fuel page acc).requested →
      pages p = PageResult.ok recs → perPage ≤ recs.length →
      (acc ++ pagesRecs pages (List.range' page (p + 1 - page))).length < n →
      p + 1 ∈ (fetchLoop pages n perPage fuel page acc).requested := by
  intro fuel
  induction fuel with
  | zero =>
    intro page acc p recs hfuel hpp hp hok hlen hcount
    simp [fetchLoop] at hp
  | succ fuel ih =>
    intro page acc p recs hfuel hpp hp hok hlen hcount
    by_cases h : acc.length < n
    · cases hpg : pages page with
      | raise =>
        rw [fetchLoop_raise_eq h hpg] at hp
        simp at hp
        subst hp
        rw [hpg] at hok
        cases hok
      | httpError =>
        rw [fetchLoop_http_eq h hpg] at hp
        simp at hp
        subst hp
        rw [hpg] at hok
        cases hok
      | errorObject =>
        rw [fetchLoop_errObj_eq h hpg] at hp
        simp at hp
        subst hp
        rw [hpg] at hok
        cases hok
      | ok recs0 =>
        cases recs0 with
        | nil =>
          rw [fetchLoop_oknil_eq h hpg] at hp
          simp at hp
          subst hp
          rw [hpg] at hok
          cases hok
          simp at hlen
          omega
        | cons rec0 rest =>
          by_cases hshort : (rec0 :: rest).length < perPage
          · rw [fetchLoop_short_eq h hpg hshort] at hp
            simp at hp
            subst hp
            rw [hpg] at hok
            cases hok
            omega
          · rw [fetchLoop_continue_eq h hpg hshort] at hp ⊢
            dsimp only at hp ⊢
            rcases List.mem_cons.mp hp with rfl | hpmem
            · have hok' : recs = rec0 :: rest := by
                rw [hpg] at hok
                cases hok
                rfl
              have hone : p + 1 - p = 1 := by omega
              rw [hone] at hcount
              have hlt : (acc ++ rec0 :: rest).length < n := by
                simpa [pagesRecs, okRecs, hpg] using hcount
              have hf : 0 < fuel := by
                simp only [List.length_append, List.length_cons] at hlt
                omega
              exact List.mem_cons_of_mem _ (fetchLoop_head hf hlt)
            · have hrange := fetchLoop_req_range' pages n perPage fuel (page + 1)
                (acc ++ rec0 :: rest)
              have hge : page + 1 ≤ p := by
                rw [hrange] at hpmem
                exact (List.mem_range'_1.mp hpmem).1
              have hsplit : List.range' page (p + 1 - page)
                  = page :: List.range' (page + 1) (p - page) := by
                have h2 : p + 1 - page = (p - page) + 1 := by omega
                rw [h2, List.range'_succ]
              rw [hsplit] at hcount
              have h3 : p + 1 - (page + 1) = p - page := by omega
              have hcount' : ((acc ++ rec0 :: rest)
                  ++ pagesRecs pages (List.range' (page + 1) (p + 1 - (page + 1)))).length < n := by
                rw [h3]
                simp only [pagesRecs, okRecs, hpg, List.length_append,
                  List.length_cons] at hcount ⊢
                omega
              have hfuel' : n < (acc ++ rec0 :: rest).length + fuel := by
                simp only [List.length_append, List.length_cons]
                omega
              exact List.mem_cons_of_mem _
                (ih (page + 1) (acc ++ rec0 :: rest) p recs hfuel' hpp hpmem hok hlen hcount')
    · rw [fetchLoop_stop h] at hp
      simp at hp

theorem fetchLoop_acc_bound (pages : ℕ → PageResult) (n perPage : ℕ)
    (hsz : ∀ p recs, pages p = PageResult.ok recs → recs.length ≤ perPage) :
    ∀ (fuel page : ℕ) (acc : List ActivityRec), acc.length < n + perPage →
      (fetchLoop pages n perPage fuel page acc).acc.length < n + perPage := by
  intro fuel
  induction fuel with
  | zero => intro page acc hb; exact hb
  | succ fuel ih =>
    intro page acc hb
    by_cases h : acc.length < n
    · cases hpg : pages page with
      | raise => rw [fetchLoop_raise_eq h hpg]; exact hb
      | httpError => rw [fetchLoop_http_eq h hpg]; exact hb
      | errorObject => rw [fetchLoop_errObj_eq h hpg]; exact hb
      | ok recs =>
        cases recs with
        | nil => rw [fetchLoop_oknil_eq h hpg]; exact hb
        | cons rec0 rest =>
          by_cases hshort : (rec0 :: rest).length < perPage
          · rw [fetchLoop_short_eq h hpg hshort]
            simp only [List.length_append]
            omega
          · rw [fetchLoop_continue_eq h hpg hshort]
            dsimp only
            apply ih
            have hple : (rec0 :: rest).length ≤ perPage := hsz page _ hpg
            simp only [List.length_append]
            omega
    · rw [fetchLoop_stop h]
      exact hb

/-!  Small helper facts used by the claim theorems.  -/

theorem speed_cell_null_right (a : Cell) :
    cellRound2 (replaceInf (cellDiv a Cell.null)) = Cell.null := by
  cases a <;> rfl

theorem speed_cell_div_zero (a : Cell) :
    cellRound2 (replaceInf (cellDiv a (Cell.num 0))) = Cell.null := by
  cases a with
  | num q =>
    have h0 : ((0 : ℚ)).num = 0 := rfl
    by_cases hq : q.num = 0
    · simp [cellDiv, h0, hq, replaceInf, cellRound2]
    · by_cases hpos : 0 < q.num
      · simp [cellDiv, h0, hq, hpos, replaceInf, cellRound2]
      · simp [cellDiv, h0, hq, hpos, replaceInf, cellRound2]
  | str s => rfl
  | date y m d => rfl
  | pinf => rfl
  | ninf => rfl
  | null => rfl

theorem zipWith_null_right {g : Cell → Cell → Cell}
    (hg : ∀ a, g a Cell.null = Cell.null) :
    ∀ (l : List Cell) (m : ℕ), l.length = m →
      List.zipWith g l (List.replicate m Cell.null) = List.replicate m Cell.null := by
  intro l
  induction l with
  | nil =>
    intro m hm
    rw [← hm]
    rfl
  | cons a l ih =>
    intro m hm
    cases m with
    | zero => simp at hm
    | succ m =>
      simp only [List.replicate_succ, List.zipWith_cons_cons, hg a]
      rw [ih m (by simpa using hm)]

/-!  Claim theorems.  -/

set_option maxRecDepth 20000 in
/-- C1, counterexample: the transport returns one full page of 200 records and
raises on page 2 with n = 201; the code discards the accumulated page and
holds the empty table, so the held result does not equal the union of the
pages before the exception. -/
theorem getData_raise_counterexample :
    (getDataLoop wPagesRaise 201).requested = [1, 2] ∧
    (getDataLoop wPagesRaise 201).raised = true ∧
    (getDataLoop wPagesRaise 201).acc = List.replicate 200 wRec ∧
    getData wPagesRaise 201 = DF.empty ∧
    ¬ getData wPagesRaise 201 = jsonNormalize (List.replicate 200 wRec) := by
  decide

/-- C1, amended: when the transport raises while requesting any page,
get_data resets the held table to the empty DataFrame, discarding all
records accumulated on earlier pages; the held table is never absent. -/
theorem getData_empty_of_raised (pages : ℕ → PageResult) (n : ℕ)
    (h : (getDataLoop pages n).raised = true) : getData pages n = DF.empty := by
  unfold getData
  simp [h]

set_option maxRecDepth 20000 in
/-- Witness for the amended C1 at a concrete raising transport. -/
theorem getData_empty_of_raised_witness :
    (getDataLoop wPagesRaise 201).raised = true ∧ getData wPagesRaise 201 = DF.empty :=
  ⟨by decide, getData_empty_of_raised wPagesRaise 201 (by decide)⟩

/-- C2: on a non-empty rectangular raw frame with no distance field,
distance_km and speed_mins_per_km are null on every row, while elapsed_min is
still computed from elapsed_time whenever that column exists; the derivations
are independent. -/
theorem tidy_missing_distance (d : DF) (hR : d.Rect) (hne : d.rows ≠ [])
    (hdist : "distance" ∉ d.cols) :
    (tidyDF d).colVals "distance_km" = List.replicate d.rows.length Cell.null ∧
    (tidyDF d).colVals "speed_mins_per_km" = List.replicate d.rows.length Cell.null ∧
    ("elapsed_time" ∈ d.cols →
      (tidyDF d).colVals "elapsed_min"
        = (d.colVals "elapsed_time").map (fun x => cellRound2 (cellDiv x (Cell.num 60)))) := by
  have hdk : (tidyDF d).colVals "distance_km" = List.replicate d.rows.length Cell.null := by
    rw [tidyDF_colVals_dist hR, if_neg hdist]
  refine ⟨hdk, ?_, ?_⟩
  · rw [tidyDF_colVals_speed hR, hdk]
    apply zipWith_null_right speed_cell_null_right
    rw [colVals_length, tidyDF_rows_length]
  · intro het
    rw [tidyDF_colVals_elapsed hR, if_pos het]

/-- Witness for C2 at a concrete frame lacking the distance field. -/
theorem tidy_missing_distance_witness :
    wDFnoDist.Rect ∧ wDFnoDist.rows ≠ [] ∧ "distance" ∉ wDFnoDist.cols ∧
    ((tidyDF wDFnoDist).colVals "distance_km"
        = List.replicate wDFnoDist.rows.length Cell.null ∧
      (tidyDF wDFnoDist).colVals "speed_mins_per_km"
        = List.replicate wDFnoDist.rows.length Cell.null ∧
      ("elapsed_time" ∈ wDFnoDist.cols →
        (tidyDF wDFnoDist).colVals "elapsed_min"
          = (wDFnoDist.colVals "elapsed_time").map
              (fun x => cellRound2 (cellDiv x (Cell.num 60))))) :=
  ⟨by decide, by decide, by decide,
    tidy_missing_distance wDFnoDist (by decide) (by decide) (by decide)⟩

/-- C3: on a non-empty rectangular raw frame whose columns do not already use
the four derived names, tidying keeps exactly the same rows in the same order
with all original column values unchanged, and appends the four derived
columns, each present in the output. -/
theorem tidy_preserves_rows (d : DF) (hR : d.Rect) (hne : d.rows ≠ [])
    (h1 : "elapsed_min" ∉ d.cols) (h2 : "distance_km" ∉ d.cols)
    (h3 : "speed_mins_per_km" ∉ d.cols) (h4 : "date" ∉ d.cols) :
    (tidyDF d).rows.length = d.rows.length ∧
    (tidyDF d).cols
      = d.cols ++ ["elapsed_min", "distance_km", "speed_mins_per_km", "date"] ∧
    (∀ c ∈ d.cols, (tidyDF d).colVals c = d.colVals c) ∧
    "elapsed_min" ∈ (tidyDF d).cols ∧ "distance_km" ∈ (tidyDF d).cols ∧
    "speed_mins_per_km" ∈ (tidyDF d).cols ∧ "date" ∈ (tidyDF d).cols := by
  refine ⟨tidyDF_rows_length, tidyDF_cols_append h1 h2 h3 h4, ?_,
    mem_tidyDF_elapsed, mem_tidyDF_dist, mem_tidyDF_speed, mem_tidyDF_date⟩
  intro c hc
  exact tidyDF_colVals_other hR (fun h => h1 (h ▸ hc)) (fun h => h2 (h ▸ hc))
    (fun h => h3 (h ▸ hc)) (fun h => h4 (h ▸ hc))

/-- Witness for C3 at a concrete fully populated raw frame. -/
theorem tidy_preserves_rows_witness :
    wDF.Rect ∧ wDF.rows ≠ [] ∧
    ((tidyDF wDF).rows.length = wDF.rows.length ∧
      (tidyDF wDF).cols
        = wDF.cols ++ ["elapsed_min", "distance_km", "speed_mins_per_km", "date"] ∧
      (∀ c ∈ wDF.cols, (tidyDF wDF).colVals c = wDF.colVals c) ∧
      "elapsed_min" ∈ (tidyDF wDF).cols ∧ "distance_km" ∈ (tidyDF wDF).cols ∧
      "speed_mins_per_km" ∈ (tidyDF wDF).cols ∧ "date" ∈ (tidyDF wDF).cols) :=
  ⟨by decide, by decide,
    tidy_preserves_rows wDF (by decide) (by decide) (by decide) (by decide)
      (by decide) (by decide)⟩

/-- C4: with a positive limit and pages of at most the requested size, the
loop continues past a successful page exactly when the accumulated count is
below the limit and the page was full; the held accumulation is the plain
concatenation of the requested pages, is never truncated, and exceeds the
limit by strictly less than one page. -/
theorem pagination_stop_policy (pages : ℕ → PageResult) (n : ℕ) (hn : 0 < n)
    (hsz : ∀ p recs, pages p = PageResult.ok recs → recs.length ≤ min n 200) :
    (∀ p, 1 ≤ p → p + 1 ∈ (getDataLoop pages n).requested →
        ∃ recs, pages p = PageResult.ok recs ∧ min n 200 ≤ recs.length
          ∧ accThrough pages p < n) ∧
    (∀ p recs, p ∈ (getDataLoop pages n).requested →
        pages p = PageResult.ok recs → min n 200 ≤ recs.length →
        accThrough pages p < n → p + 1 ∈ (getDataLoop pages n).requested) ∧
    (getDataLoop pages n).acc = pagesRecs pages (getDataLoop pages n).requested ∧
    (getDataLoop pages n).acc.length < n + min n 200 ∧
    ((getDataLoop pages n).raised = false →
        getData pages n = jsonNormalize (getDataLoop pages n).acc) := by
  have hrange : (getDataLoop pages n).requested
      = List.range' 1 (getDataLoop pages n).requested.length :=
    fetchLoop_req_range' pages n (min n 200) (n + 1) 1 []
  refine ⟨?_, ?_, ?_, ?_, ?_⟩
  · intro p hp1 hnext
    have hb : 1 ≤ p + 1 ∧ p + 1 < 1 + (getDataLoop pages n).requested.length := by
      rw [hrange] at hnext
      exact List.mem_range'_1.mp hnext
    have hpmem : p ∈ (getDataLoop pages n).requested := by
      rw [hrange]
      exact List.mem_range'_1.mpr ⟨hp1, by omega⟩
    obtain ⟨recs, hok, hfull, hcount⟩ :=
      fetchLoop_full_of_next pages n (min n 200) (n + 1) 1 [] p hpmem hnext
    refine ⟨recs, hok, hfull, ?_⟩
    have hsub : p + 1 - 1 = p := by omega
    rw [hsub] at hcount
    simpa [accThrough] using hcount
  · intro p recs hpmem hok hfull hcount
    apply fetchLoop_next_of_full pages n (min n 200) (n + 1) 1 [] p recs
    · simp
    · omega
    · exact hpmem
    · exact hok
    · exact hfull
    · have hsub : p + 1 - 1 = p := by omega
      rw [hsub]
      simpa [accThrough] using hcount
  · simpa using fetchLoop_acc_eq pages n (min n 200) (n + 1) 1 []
  · exact fetchLoop_acc_bound pages n (min n 200) hsz (n + 1) 1 [] (by simp; omega)
  · intro h
    unfold getData
    simp [h]

/-- Witness for C4 at a concrete transport whose pages are always full. -/
theorem pagination_stop_policy_witness :
    0 < 3 ∧ (∀ p recs, wPagesFull p = PageResult.ok recs → recs.length ≤ min 3 200) ∧
    ((getDataLoop wPagesFull 3).acc
        = pagesRecs wPagesFull (getDataLoop wPagesFull 3).requested ∧
      (getDataLoop wPagesFull 3).acc.length < 3 + min 3 200) := by
  refine ⟨by decide, fun p recs h => by cases h; decide, ?_⟩
  have h := pagination_stop_policy wPagesFull 3 (by decide)
    (fun p recs h => by cases h; decide)
  exact ⟨h.2.2.1, h.2.2.2.1⟩

/-- C5: once a requested page returns fewer records than the requested page
size, no later page is ever requested in that invocation. -/
theorem short_page_stops_pagination (pages : ℕ → PageResult) (n p : ℕ)
    (recs : List ActivityRec)
    (hreq : p ∈ (getDataLoop pages n).requested)
    (hok : pages p = PageResult.ok recs)
    (hshort : recs.length < min n 200) :
    ∀ q, p < q → q ∉ (getDataLoop pages n).requested := by
  intro q hpq hqmem
  have hrange : (getDataLoop pages n).requested
      = List.range' 1 (getDataLoop pages n).requested.length :=
    fetchLoop_req_range' pages n (min n 200) (n + 1) 1 []
  have hpb : 1 ≤ p ∧ p < 1 + (getDataLoop pages n).requested.length := by
    rw [hrange] at hreq
    exact List.mem_range'_1.mp hreq
  have hqb : 1 ≤ q ∧ q < 1 + (getDataLoop pages n).requested.length := by
    rw [hrange] at hqmem
    exact List.mem_range'_1.mp hqmem
  have hnext : p + 1 ∈ (getDataLoop pages n).requested := by
    rw [hrange]
    exact List.mem_range'_1.mpr ⟨by omega, by omega⟩
  obtain ⟨recs', hok', hfull, _⟩ :=
    fetchLoop_full_of_next pages n (min n 200) (n + 1) 1 [] p hreq hnext
  rw [hok] at hok'
  cases hok'
  omega

/-- Witness for C5 at a concrete transport whose first page is short. -/
theorem short_page_stops_pagination_witness :
    1 ∈ (getDataLoop wPagesShort 5).requested ∧
    wPagesShort 1 = PageResult.ok [wRec] ∧
    ([wRec] : List ActivityRec).length < min 5 200 ∧
    2 ∉ (getDataLoop wPagesShort 5).requested :=
  ⟨by decide, by decide, by decide,
    short_page_stops_pagination wPagesShort 5 1 [wRec] (by decide) (by decide)
      (by decide) 2 (by decide)⟩

/-- C6: a row whose raw distance is zero gets a null speed_mins_per_km after
tidying: the division by a zero distance produces an infinity or NaN which
the replace step maps to null. -/
theorem zero_distance_speed_null (d : DF) (hR : d.Rect)
    (hdl : "distance" ∈ d.cols) (i : ℕ)
    (hi : (d.colVals "distance")[i]? = some (Cell.num 0)) :
    ((tidyDF d).colVals "speed_mins_per_km")[i]? = some Cell.null := by
  have hdk : ((tidyDF d).colVals "distance_km")[i]? = some (Cell.num 0) := by
    rw [tidyDF_colVals_dist hR, if_pos hdl, List.getElem?_map, hi]
    decide
  have hlen_d : i < d.rows.length := by
    have h1 : i < (d.colVals "distance").length := by
      rcases List.getElem?_eq_some_iff.mp hi with ⟨h, _⟩
      exact h
    rwa [colVals_length] at h1
  have hlen_em : i < ((tidyDF d).colVals "elapsed_min").length := by
    rw [colVals_length, tidyDF_rows_length]
    exact hlen_d
  obtain ⟨a, ha⟩ : ∃ a, ((tidyDF d).colVals "elapsed_min")[i]? = some a :=
    ⟨_, List.getElem?_eq_getElem hlen_em⟩
  rw [tidyDF_colVals_speed hR, List.getElem?_zipWith, ha, hdk]
  dsimp only
  rw [speed_cell_div_zero a]

/-- Witness for C6 at a concrete frame with distance zero and elapsed 60. -/
theorem zero_distance_speed_null_witness :
    wDFzero.Rect ∧ "distance" ∈ wDFzero.cols ∧
    (wDFzero.colVals "distance")[0]? = some (Cell.num 0) ∧
    ((tidyDF wDFzero).colVals "speed_mins_per_km")[0]? = some Cell.null :=
  ⟨by decide, by decide, by decide,
    zero_distance_speed_null wDFzero (by decide) (by decide) 0 (by decide)⟩

/-- C7: when the held value is not a DataFrame or is an empty DataFrame,
tidy_data returns the empty table without raising and computes no derived
columns. -/
theorem tidy_empty_or_malformed (h : Held)
    (hm : h = Held.notDF ∨ ∃ d, h = Held.table d ∧ d.isEmpty = true) :
    tidyData h = Except.ok (Held.table DF.empty) := by
  rcases hm with rfl | ⟨d, rfl, hde⟩
  · rfl
  · simp [tidyData, hde]

/-- Witness for C7 at the empty DataFrame. -/
theorem tidy_empty_or_malformed_witness :
    (Held.table DF.empty = Held.notDF
      ∨ ∃ d, Held.table DF.empty = Held.table d ∧ d.isEmpty = true) ∧
    tidyData (Held.table DF.empty) = Except.ok (Held.table DF.empty) :=
  ⟨Or.inr ⟨DF.empty, rfl, rfl⟩,
    tidy_empty_or_malformed (Held.table DF.empty) (Or.inr ⟨DF.empty, rfl, rfl⟩)⟩

/-- C8: tidy_data is idempotent on the held state produced by get_data:
running it on the already-tidied table yields the identical table. -/
theorem tidy_idempotent (rs : List ActivityRec) :
    (tidyData (Held.table (jsonNormalize rs))).bind tidyData
      = tidyData (Held.table (jsonNormalize rs)) := by
  by_cases he : (jsonNormalize rs).isEmpty
  · have h1 : tidyData (Held.table (jsonNormalize rs))
        = Except.ok (Held.table DF.empty) := by
      simp [tidyData, he]
    rw [h1]
    rfl
  · have hrows : (jsonNormalize rs).rows ≠ [] := by
      intro hr
      apply he
      simp [DF.isEmpty, hr]
    have h1 : tidyData (Held.table (jsonNormalize rs))
        = Except.ok (Held.table (tidyDF (jsonNormalize rs))) := by
      simp [tidyData, he]
    rw [h1]
    show tidyData (Held.table (tidyDF (jsonNormalize rs)))
        = Except.ok (Held.table (tidyDF (jsonNormalize rs)))
    have h2 : (tidyDF (jsonNormalize rs)).isEmpty = false := tidyDF_isEmpty_false hrows
    simp [tidyData, h2, tidyDF_idem (jsonNormalize_nodup rs) (jsonNormalize_rect rs)]

/-- C9: after the elapsed and distance steps both derived columns always
exist, so the guard of the speed computation holds and the fallback branch
assigning a NaN column without division is unreachable; the speed column is
always produced by the division-and-replace path. -/
theorem speed_guard_always_true (d : DF) (hne : d.rows ≠ []) :
    speedGuard (addDistance (addElapsed d)) ∧
    addSpeed (addDistance (addElapsed d)) = addSpeedDiv (addDistance (addElapsed d)) := by
  have hg : speedGuard (addDistance (addElapsed d)) :=
    ⟨(addDistance_mem_iff (by decide)).mpr mem_addElapsed, mem_addDistance⟩
  refine ⟨hg, ?_⟩
  unfold addSpeed
  rw [if_pos hg]

/-- Witness for C9 at a concrete raw frame. -/
theorem speed_guard_always_true_witness :
    wDF.rows ≠ [] ∧
    (speedGuard (addDistance (addElapsed wDF)) ∧
      addSpeed (addDistance (addElapsed wDF))
        = addSpeedDiv (addDistance (addElapsed wDF))) :=
  ⟨by decide, speed_guard_always_true wDF (by decide)⟩

/-- C10: calling tidy_data before any get_data call reads the missing
attribute self.data and raises AttributeError instead of returning an empty
table. -/
theorem tidy_before_get_raises :
    tidyData Held.missing = Except.error PyErr.attributeError := rfl

